import Mathlib

/-
Shallow embedding of the bandit_algorithms repository.

Modules embedded:
  * bandit_algorithms/epsilon_greedy/epsilon_greedy_algorithm.py
      (EpsilonGreedy, AnnealingEpsilonGreedy)
  * bandit_algorithms/softmax/softmax_algorithm.py
      (Softmax, AnnealingSoftmax)
  * bandit_algorithms/upper_confidence_bound/ucb.py (UCB)
  * testing/test_bandit_algorithms.py (BernoulliArm, test_algorithm)

Modelling conventions:
  * Rewards and value estimates are rationals, so the running-mean
    arithmetic of update is exact; schedule / score quantities that the
    code computes with log, sqrt and exp live in ℝ.
  * Randomness is an explicit input: the np.random.random() draw, the
    np.random.randint outcome and the one-trial multinomial sample are
    passed as arguments.
  * numpy calls that raise on degenerate input (np.argmax of an empty
    array, np.random.randint(0, 0)) are modelled with Option: none is a
    raised exception.
  * Methods that in Python read self and return a value are modelled as
    functions returning (result, state) pairs, so that frame conditions
    (select_arm does not mutate counts/values) are expressible.
-/

/-- Strategy state: the pair (self.counts, self.values) that all five
variants maintain. Counts are per-arm play counts, values are per-arm
running mean reward estimates. -/
structure BState where
  counts : List ℕ
  values : List ℚ

/-- Maximum of the nonempty list x :: xs, folded left like numpy reduces. -/
def listMax {α : Type} [LinearOrder α] (x : α) (xs : List α) : α :=
  xs.foldl max x

/-- np.argmax on a nonempty list: the index of the first occurrence of the
maximum value (numpy documents exactly this tie-breaking). On [] it is a
placeholder; callers model the numpy ValueError with argmaxIdxO. -/
def argmaxIdx {α : Type} [LinearOrder α] : List α → ℕ
  | [] => 0
  | x :: xs => (x :: xs).findIdx (fun y => decide (listMax x xs ≤ y))

/-- np.argmax with the empty-array ValueError made explicit. -/
def argmaxIdxO {α : Type} [LinearOrder α] (l : List α) : Option ℕ :=
  if l.isEmpty then none else some (argmaxIdx l)

/-- np.random.randint(0, n): raises for n = 0, otherwise returns the
externally supplied random outcome r. -/
def randintO (n : ℕ) (r : ℕ) : Option ℕ :=
  if n = 0 then none else some r

/-- EpsilonGreedy.initialize, Softmax.initialize and UCB.initialize have
the identical body: self.counts = np.zeros(n_arms, int) and
self.values = np.zeros(n_arms, float). The prior state argument records
that the result ignores whatever state the instance held before. -/
def initializeState (_prior : BState) (nArms : ℕ) : BState :=
  { counts := List.replicate nArms 0, values := List.replicate nArms 0 }

/-- update(chosen_arm, reward): shared verbatim by EpsilonGreedy (lines
45-54), UCB (lines 132-141 of the concatenated sources) and Softmax.
Increments the count of the chosen arm and folds the reward into the running
mean with new = value*((n-1)/n) + reward/n. -/
def updateState (s : BState) (chosenArm : ℕ) (reward : ℚ) : BState :=
  let counts := s.counts.set chosenArm (s.counts.getD chosenArm 0 + 1)
  let n : ℚ := counts.getD chosenArm 0
  let value := s.values.getD chosenArm 0
  let newValue := value * ((n - 1) / n) + reward / n
  { counts := counts, values := s.values.set chosenArm newValue }

/-- EpsilonGreedy.select_arm. z is the np.random.random() draw in [0,1),
randArm the np.random.randint outcome. If z > epsilon the best arm
(np.argmax of values) is returned, otherwise a random arm. -/
def EpsilonGreedy.selectArm (epsilon : ℚ) (s : BState) (z : ℚ) (randArm : ℕ) :
    Option ℕ × BState :=
  if z > epsilon then (argmaxIdxO s.values, s)
  else (randintO s.values.length randArm, s)

/-- The annealing schedule 1 / np.log(t + 0.0000001) shared by
AnnealingEpsilonGreedy.select_arm and AnnealingSoftmax.select_arm; the
float literal 0.0000001 is modelled as the exact rational 1/10^7. -/
noncomputable def annealSchedule (t : ℕ) : ℝ :=
  1 / Real.log ((t : ℝ) + 1 / 10000000)

/-- AnnealingEpsilonGreedy.select_arm: identical to the standard variant
except epsilon is recomputed each call from t = sum(counts) + 1. The draw
z is compared against a real-valued epsilon, so z lives in ℝ. -/
noncomputable def AnnealingEpsilonGreedy.selectArm (s : BState) (z : ℝ)
    (randArm : ℕ) : Option ℕ × BState :=
  let t := s.counts.sum + 1
  let epsilon := annealSchedule t
  if z > epsilon then (argmaxIdxO s.values, s)
  else (randintO s.values.length randArm, s)

/-- The softmax probability vector exp(v/T) / Σ exp(v/T) computed by
Softmax.select_arm. -/
noncomputable def softmaxProbs (temperature : ℝ) (values : List ℚ) : List ℝ :=
  let z := values.map (fun v => (v : ℝ) / temperature)
  z.map (fun zi => Real.exp zi / (z.map Real.exp).sum)

/-- Softmax.categorical_draw: preds is the one-trial multinomial sample
(a one-hot count vector), the result is np.argmax(preds). -/
def categoricalDraw (preds : List ℕ) : ℕ := argmaxIdx preds

/-- Softmax.select_arm: sample stands for np.random.multinomial(1, probs, 1),
a randomised function of the computed probability vector. An empty arm set
makes the multinomial/argmax step raise, modelled as none. -/
noncomputable def Softmax.selectArm (temperature : ℝ) (s : BState)
    (sample : List ℝ → List ℕ) : Option ℕ × BState :=
  if s.values.isEmpty then (none, s)
  else (some (categoricalDraw (sample (softmaxProbs temperature s.values))), s)

/-- AnnealingSoftmax.select_arm: Softmax.select_arm with the temperature
recomputed each call from t = sum(counts) + 1. -/
noncomputable def AnnealingSoftmax.selectArm (s : BState)
    (sample : List ℝ → List ℕ) : Option ℕ × BState :=
  let t := s.counts.sum + 1
  let temperature := annealSchedule t
  if s.values.isEmpty then (none, s)
  else (some (categoricalDraw (sample (softmaxProbs temperature s.values))), s)

/-- The UCB1 scores values[arm] + sqrt(2*log(n)/counts[arm]) with n the
total play count, computed by the second loop of UCB.select_arm. -/
noncomputable def ucbScores (s : BState) : List ℝ :=
  let n := s.counts.sum
  (List.range s.counts.length).map (fun arm =>
    (s.values.getD arm 0 : ℝ) +
      Real.sqrt ((2 * Real.log (n : ℝ)) / (s.counts.getD arm 0 : ℝ)))

/-- UCB.select_arm: the first loop returns the lowest-index arm with a zero
count; only when no such arm exists are the UCB scores computed and their
argmax returned (none models np.argmax raising on an empty array). -/
noncomputable def UCB.selectArm (s : BState) : Option ℕ × BState :=
  match s.counts.findIdx? (fun c => c == 0) with
  | some arm => (some arm, s)
  | none => (argmaxIdxO (ucbScores s), s)

/-- One select-then-update round of the UCB algorithm as driven by the
harness: the arm returned by select_arm is fed back to update together
with the observed reward (a raised select leaves the state alone). -/
noncomputable def ucbRound (s : BState) (reward : ℚ) : BState :=
  match (UCB.selectArm s).1 with
  | some arm => updateState s arm reward
  | none => s

/-- The UCB state after playing the given reward sequence, starting from a
freshly initialized K-arm state. -/
noncomputable def ucbRun (nArms : ℕ) (rewards : List ℚ) : BState :=
  rewards.foldl ucbRound (initializeState ⟨[], []⟩ nArms)

/-- The common strategy contract used by test_algorithm: initialize,
select_arm (randomness ρ explicit) and update. -/
structure Algo (σ ρ : Type) where
  init : ℕ → σ
  select : σ → ρ → ℕ
  upd : σ → ℕ → ℚ → σ

/-- BernoulliArm.draw with the np.random.random() draw z explicit: reward
0 when z > p, else 1. -/
def BernoulliArm.draw (p : ℚ) (z : ℚ) : ℚ :=
  if z > p then 0 else 1

/-- The inner time-horizon loop of test_algorithm: at step t select an arm
with the per-step selection randomness, draw its reward with the per-step arm
randomness, record (chosen arm, reward) and feed the pair back to update. -/
def simSteps {σ ρ ρa : Type} (A : Algo σ ρ) (draw : ℕ → ρa → ℚ)
    (selR : ℕ → ρ) (armR : ℕ → ρa) : σ → ℕ → ℕ → List (ℕ × ℚ)
  | _, _, 0 => []
  | s, t, h + 1 =>
    let arm := A.select s (selR t)
    let reward := draw arm (armR t)
    (arm, reward) :: simSteps A draw selR armR (A.upd s arm reward) (t + 1) h

/-- np.cumsum from a running accumulator. -/
def cumsumFrom (acc : ℚ) : List ℚ → List ℚ
  | [] => []
  | x :: xs => (acc + x) :: cumsumFrom (acc + x) xs

/-- np.cumsum of a list of rationals. -/
def cumsum (l : List ℚ) : List ℚ := cumsumFrom 0 l

/-- test_algorithm(algo, arms, num_simulations, horizon): for each of the
numSims independent runs the strategy is re-initialized on nArms arms and
driven for horizon steps; then average_rewards is the per-step mean of the
recorded rewards over all runs (np.mean axis 0) and cumulative_rewards its
running sum (np.cumsum). The random streams selR and armR are indexed by
(simulation, time step). -/
def testAlgorithm {σ ρ ρa : Type} (A : Algo σ ρ) (nArms : ℕ)
    (draw : ℕ → ρa → ℚ) (selR : ℕ → ℕ → ρ) (armR : ℕ → ℕ → ρa)
    (numSims horizon : ℕ) : List (List ℕ) × List ℚ × List ℚ :=
  let table := (List.range numSims).map (fun sim =>
    simSteps A draw (selR sim) (armR sim) (A.init nArms) 0 horizon)
  let chosenArms := table.map (fun row => row.map (fun u => u.1))
  let rewards := table.map (fun row => row.map (fun u => u.2))
  let averageRewards := (List.range horizon).map (fun t =>
    (rewards.map (fun row => row.getD t 0)).sum / (numSims : ℚ))
  let cumulativeRewards := cumsum averageRewards
  (chosenArms, averageRewards, cumulativeRewards)

/- Generic facts about listMax, argmaxIdx and findIdx used to characterise
np.argmax as first-occurring maximum. -/

theorem listMax_cons {α : Type} [LinearOrder α] (x y : α) (ys : List α) :
    listMax x (y :: ys) = listMax (max x y) ys := rfl

theorem le_listMax_init {α : Type} [LinearOrder α] (xs : List α) :
    ∀ x : α, x ≤ listMax x xs := by
  induction xs with
  | nil => intro x; exact le_refl x
  | cons y ys ih =>
    intro x
    rw [listMax_cons]
    exact le_trans (le_max_left x y) (ih (max x y))

theorem le_listMax_of_mem {α : Type} [LinearOrder α] {y : α} (xs : List α) :
    ∀ x : α, y ∈ x :: xs → y ≤ listMax x xs := by
  induction xs with
  | nil =>
    intro x h
    exact le_of_eq (List.mem_singleton.mp h)
  | cons z zs ih =>
    intro x h
    rw [listMax_cons]
    rcases List.mem_cons.mp h with h4 | h2
    · rw [h4]
      exact le_trans (le_max_left x z) (le_listMax_init zs (max x z))
    · rcases List.mem_cons.mp h2 with h4 | h3
      · rw [h4]
        exact le_trans (le_max_right x z) (le_listMax_init zs (max x z))
      · exact ih (max x z) (List.mem_cons_of_mem _ h3)

theorem listMax_mem {α : Type} [LinearOrder α] (xs : List α) :
    ∀ x : α, listMax x xs ∈ x :: xs := by
  induction xs with
  | nil => intro x; exact List.mem_singleton.mpr rfl
  | cons y ys ih =>
    intro x
    rw [listMax_cons]
    rcases List.mem_cons.mp (ih (max x y)) with h1 | h2
    · rw [h1]
      rcases max_choice x y with h3 | h3 <;> rw [h3]
      · exact List.mem_cons_self x (y :: ys)
      · exact List.mem_cons_of_mem x (List.mem_cons_self y ys)
    · exact List.mem_cons_of_mem x (List.mem_cons_of_mem y h2)

/-- Characterisation of argmaxIdx on a nonempty list: it is a valid index,
its entry is an upper bound of every entry, and every strictly earlier
entry is strictly smaller (np.argmax first-occurrence tie-breaking). -/
theorem argmaxIdx_spec {α : Type} [LinearOrder α] (x : α) (xs : List α) :
    argmaxIdx (x :: xs) < (x :: xs).length ∧
      (∀ j, j < (x :: xs).length →
        (x :: xs).getD j x ≤ (x :: xs).getD (argmaxIdx (x :: xs)) x) ∧
      (∀ j, j < argmaxIdx (x :: xs) →
        (x :: xs).getD j x < (x :: xs).getD (argmaxIdx (x :: xs)) x) := by
  have hax : argmaxIdx (x :: xs) =
      (x :: xs).findIdx (fun y => decide (listMax x xs ≤ y)) := rfl
  have hex : ∃ y ∈ x :: xs, (fun y => decide (listMax x xs ≤ y)) y = true :=
    ⟨listMax x xs, listMax_mem xs x, by simp⟩
  have hlt : (x :: xs).findIdx (fun y => decide (listMax x xs ≤ y)) <
      (x :: xs).length := List.findIdx_lt_length_of_exists hex
  have hpm := @List.findIdx_getElem _ (fun y => decide (listMax x xs ≤ y))
    (x :: xs) hlt
  have hm : listMax x xs ≤ (x :: xs).getD (argmaxIdx (x :: xs)) x := by
    rw [hax, List.getD_eq_getElem _ _ hlt]
    exact of_decide_eq_true hpm
  refine ⟨hax ▸ hlt, ?_, ?_⟩
  · intro j hj
    have h1 : (x :: xs).getD j x ≤ listMax x xs := by
      rw [List.getD_eq_getElem _ _ hj]
      exact le_listMax_of_mem xs x (List.getElem_mem hj)
    exact le_trans h1 hm
  · intro j hj
    rw [hax] at hj
    have hjl : j < (x :: xs).length := lt_trans hj hlt
    have hnp := List.not_of_lt_findIdx hj
    simp only [decide_eq_false_iff_not, not_le] at hnp
    have h2 : (x :: xs).getD j x < listMax x xs := by
      rw [List.getD_eq_getElem _ _ hjl]
      exact hnp
    exact lt_of_lt_of_le h2 hm

/-- argmaxIdx characterisation restated with an arbitrary getD default,
valid because every index involved is in bounds. -/
theorem argmaxIdx_spec_getD {α : Type} [LinearOrder α] (l : List α) (d : α)
    (hl : l ≠ []) :
    argmaxIdx l < l.length ∧
      (∀ j, j < l.length → l.getD j d ≤ l.getD (argmaxIdx l) d) ∧
      (∀ j, j < argmaxIdx l → l.getD j d < l.getD (argmaxIdx l) d) := by
  match l, hl with
  | x :: xs, _ =>
    obtain ⟨h1, h2, h3⟩ := argmaxIdx_spec x xs
    refine ⟨h1, ?_, ?_⟩
    · intro j hj
      have hle := h2 j hj
      rw [List.getD_eq_getElem _ _ hj, List.getD_eq_getElem _ _ h1] at hle ⊢
      exact hle
    · intro j hj
      have hjl : j < (x :: xs).length := lt_trans hj h1
      have hlt := h3 j hj
      rw [List.getD_eq_getElem _ _ hjl, List.getD_eq_getElem _ _ h1] at hlt ⊢
      exact hlt

/-- C7: after initialize(K) — the body shared by EpsilonGreedy, Softmax and
UCB — the play-count and value-estimate vectors are length-K all-zero
vectors, regardless of the prior state of the instance. -/
theorem initialize_zero_state (s : BState) (nArms : ℕ) :
    (initializeState s nArms).counts = List.replicate nArms 0 ∧
      (initializeState s nArms).values = List.replicate nArms 0 ∧
      (initializeState s nArms).counts.length = nArms ∧
      (initializeState s nArms).values.length = nArms := by
  refine ⟨rfl, rfl, ?_, ?_⟩ <;> simp [initializeState]

/-- C8: for every strategy variant, select_arm is a pure read: the state
component it returns is exactly the input state, for every state and every
randomness input. -/
theorem selectArm_preserves_state :
    (∀ (epsilon : ℚ) (s : BState) (z : ℚ) (r : ℕ),
        (EpsilonGreedy.selectArm epsilon s z r).2 = s) ∧
      (∀ (s : BState) (z : ℝ) (r : ℕ),
        (AnnealingEpsilonGreedy.selectArm s z r).2 = s) ∧
      (∀ (temperature : ℝ) (s : BState) (sample : List ℝ → List ℕ),
        (Softmax.selectArm temperature s sample).2 = s) ∧
      (∀ (s : BState) (sample : List ℝ → List ℕ),
        (AnnealingSoftmax.selectArm s sample).2 = s) ∧
      (∀ s : BState, (UCB.selectArm s).2 = s) := by
  refine ⟨?_, ?_, ?_, ?_, ?_⟩
  · intro epsilon s z r
    by_cases h : z > epsilon <;> simp [EpsilonGreedy.selectArm, h]
  · intro s z r
    by_cases h : z > annealSchedule (s.counts.sum + 1) <;>
      simp [AnnealingEpsilonGreedy.selectArm, h]
  · intro temperature s sample
    by_cases h : s.values.isEmpty <;> simp [Softmax.selectArm, h]
  · intro s sample
    by_cases h : s.values.isEmpty <;> simp [AnnealingSoftmax.selectArm, h]
  · intro s
    unfold UCB.selectArm
    split <;> rfl

/-- C3 counterexample: with epsilon = 0 the draw z = 0 — a value
np.random.random() can return, its range being [0,1) — fails the strict
test z > epsilon, so select_arm takes the random branch and returns the
random arm 0 even though the first-occurring maximum of values = [0, 1]
is arm 1: the result is not determined by the values alone. -/
theorem epsilonGreedy_zero_eps_counterexample :
    (EpsilonGreedy.selectArm 0 ⟨[0, 0], [0, 1]⟩ 0 0).1 = some 0 ∧
      argmaxIdx [(0 : ℚ), 1] = 1 := by
  constructor
  · decide
  · decide

/-- C3 (amended): with epsilon = 0 and any strictly positive draw z (all
of [0,1) except the single point 0), select_arm returns the index of the
first-occurring maximum of the value vector. -/
theorem epsilonGreedy_zero_eps_greedy (s : BState) (z : ℚ) (r : ℕ)
    (hz : 0 < z) (hv : s.values ≠ []) :
    ∃ m, (EpsilonGreedy.selectArm 0 s z r).1 = some m ∧
      m < s.values.length ∧
      (∀ j, j < s.values.length → s.values.getD j 0 ≤ s.values.getD m 0) ∧
      (∀ j, j < m → s.values.getD j 0 < s.values.getD m 0) := by
  have hsel : (EpsilonGreedy.selectArm 0 s z r).1 =
      some (argmaxIdx s.values) := by
    rw [EpsilonGreedy.selectArm, if_pos hz]
    simp [argmaxIdxO, hv]
  obtain ⟨h1, h2, h3⟩ := argmaxIdx_spec_getD s.values 0 hv
  exact ⟨argmaxIdx s.values, hsel, h1, h2, h3⟩

/-- C3 witness: a concrete application with z = 1 > 0. -/
theorem epsilonGreedy_zero_eps_greedy_witness :
    (0 : ℚ) < 1 ∧
      (∃ m, (EpsilonGreedy.selectArm 0 ⟨[0, 0], [0, 1]⟩ 1 0).1 = some m ∧
        m < (⟨[0, 0], [0, 1]⟩ : BState).values.length ∧
        (∀ j, j < (⟨[0, 0], [0, 1]⟩ : BState).values.length →
          (⟨[0, 0], [0, 1]⟩ : BState).values.getD j 0 ≤
            (⟨[0, 0], [0, 1]⟩ : BState).values.getD m 0) ∧
        (∀ j, j < m →
          (⟨[0, 0], [0, 1]⟩ : BState).values.getD j 0 <
            (⟨[0, 0], [0, 1]⟩ : BState).values.getD m 0)) :=
  ⟨by decide,
    epsilonGreedy_zero_eps_greedy ⟨[0, 0], [0, 1]⟩ 1 0 (by decide)
      (by decide)⟩

/-- C9 counterexample: epsilon = 2 is an ill-formed exploration
probability (a probability must lie in [0,1], and 1 < 2), yet the
constructor stores it unchecked and the first select_arm call returns an
arm (the draw 1 never exceeds 2, so the policy silently degenerates to
pure random choice) instead of being rejected. -/
theorem no_fail_fast_counterexample :
    (1 : ℚ) < 2 ∧
      (EpsilonGreedy.selectArm 2 ⟨[0, 0], [0, 1]⟩ 1 0).1 = some 0 := by
  constructor
  · decide
  · decide

/-- C9 (amended): the code performs no precondition validation. For every
epsilon — well-formed or not — and every draw, select_arm on a nonempty
arm set returns an arm rather than failing; the only violation that makes
the first call fail is an empty arm set, where np.argmax / np.random.randint
raise on empty input. -/
theorem epsilonGreedy_no_validation :
    (∀ (epsilon z : ℚ) (r : ℕ) (s : BState), s.values ≠ [] →
        ((EpsilonGreedy.selectArm epsilon s z r).1).isSome = true) ∧
      (∀ (epsilon z : ℚ) (r : ℕ),
        (EpsilonGreedy.selectArm epsilon ⟨[], []⟩ z r).1 = none) := by
  constructor
  · intro epsilon z r s hv
    by_cases h : z > epsilon
    · rw [EpsilonGreedy.selectArm, if_pos h]
      simp [argmaxIdxO, hv]
    · rw [EpsilonGreedy.selectArm, if_neg h]
      simp [randintO, List.length_eq_zero, hv]
  · intro epsilon z r
    by_cases h : z > epsilon
    · rw [EpsilonGreedy.selectArm, if_pos h]
      simp [argmaxIdxO]
    · rw [EpsilonGreedy.selectArm, if_neg h]
      simp [randintO]

/-- C9 witness: the ill-formed epsilon = 2 is accepted and returns an arm
on a 2-arm state; on an empty arm set the first call fails. -/
theorem epsilonGreedy_no_validation_witness :
    ((⟨[0, 0], [0, 1]⟩ : BState).values ≠ [] ∧
        ((EpsilonGreedy.selectArm 2 ⟨[0, 0], [0, 1]⟩ 1 0).1).isSome
          = true) ∧
      (EpsilonGreedy.selectArm 0 ⟨[], []⟩ 0 0).1 = none :=
  ⟨⟨by decide,
      epsilonGreedy_no_validation.1 2 1 0 ⟨[0, 0], [0, 1]⟩ (by decide)⟩,
    epsilonGreedy_no_validation.2 0 0 0⟩

/-- C5: the annealing schedule 1/ln(t + 1e-7) computed by the annealing
select_arm variants at total play count t is strictly decreasing for
t ≥ 1. -/
theorem annealSchedule_strict_anti (t1 t2 : ℕ) (h1 : 1 ≤ t1) (h2 : t1 < t2) :
    annealSchedule t2 < annealSchedule t1 := by
  unfold annealSchedule
  have ha : (1 : ℝ) < (t1 : ℝ) + 1 / 10000000 := by
    have hc : (1 : ℝ) ≤ (t1 : ℝ) := by exact_mod_cast h1
    linarith
  have hb : (t1 : ℝ) + 1 / 10000000 < (t2 : ℝ) + 1 / 10000000 := by
    have hc : (t1 : ℝ) < (t2 : ℝ) := by exact_mod_cast h2
    linarith
  have hl1 : 0 < Real.log ((t1 : ℝ) + 1 / 10000000) := Real.log_pos ha
  have hl2 : Real.log ((t1 : ℝ) + 1 / 10000000) <
      Real.log ((t2 : ℝ) + 1 / 10000000) :=
    Real.log_lt_log (by linarith) hb
  exact one_div_lt_one_div_of_lt hl1 hl2

/-- C5 witness: the schedule strictly decreases from t = 1 to t = 2. -/
theorem annealSchedule_strict_anti_witness :
    annealSchedule 2 < annealSchedule 1 :=
  annealSchedule_strict_anti 1 2 (le_refl 1) (by decide)

/-- C10: right after initialize(K) all counts are zero, so the annealing
epsilon-greedy schedule gives epsilon = 1/ln(1 + 1e-7) > 1; every draw z
in [0,1) then fails z > epsilon, and select_arm returns the uniformly
random arm — the argmax branch is unreachable on the first call. -/
theorem annealingEpsilonGreedy_first_call_explores (nArms : ℕ) (z : ℝ)
    (r : ℕ) (hK : 1 ≤ nArms) (hz0 : 0 ≤ z) (hz1 : z < 1) :
    1 < annealSchedule 1 ∧
      (AnnealingEpsilonGreedy.selectArm (initializeState ⟨[], []⟩ nArms) z
        r).1 = some r := by
  have hA : (0 : ℝ) < 1 + 1 / 10000000 := by norm_num
  have hlog_le : Real.log (1 + 1 / 10000000) ≤ 1 / 10000000 := by
    have hc := Real.log_le_sub_one_of_pos hA
    linarith
  have hlog_pos : 0 < Real.log (1 + 1 / 10000000) :=
    Real.log_pos (by norm_num)
  have hsched : 1 < annealSchedule 1 := by
    unfold annealSchedule
    rw [show ((1 : ℕ) : ℝ) + 1 / 10000000 = 1 + 1 / 10000000 by norm_num]
    rw [lt_div_iff hlog_pos, one_mul]
    exact lt_of_le_of_lt hlog_le (by norm_num)
  refine ⟨hsched, ?_⟩
  have hsum : (initializeState ⟨[], []⟩ nArms).counts.sum = 0 := by
    simp [initializeState]
  have hlen : (initializeState ⟨[], []⟩ nArms).values.length = nArms := by
    simp [initializeState]
  have hnz : ¬ z > annealSchedule
      ((initializeState ⟨[], []⟩ nArms).counts.sum + 1) := by
    rw [hsum]
    exact not_lt.mpr (le_of_lt (lt_trans hz1 hsched))
  simp only [AnnealingEpsilonGreedy.selectArm]
  rw [if_neg hnz, hlen]
  simp [randintO, Nat.pos_iff_ne_zero.mp hK]

/-- C10 witness: K = 1, draw z = 0, random arm 0. -/
theorem annealingEpsilonGreedy_first_call_explores_witness :
    1 < annealSchedule 1 ∧
      (AnnealingEpsilonGreedy.selectArm (initializeState ⟨[], []⟩ 1) 0 0).1
        = some 0 :=
  annealingEpsilonGreedy_first_call_explores 1 0 0 (le_refl 1) (le_refl 0)
    zero_lt_one

/-- C4: the UCB bonus computation is shielded by the zero-count loop: if the
loop finds no zero-count arm then every arm within range has count ≥ 1 (so
the division by counts[arm] in the bonus is never a division by zero), and
whenever some arm has a zero count, select_arm returns the first such arm
without reaching the bonus branch. -/
theorem ucb_zero_branch_shields_division (s : BState) :
    (s.counts.findIdx? (fun c => c == 0) = none →
        ∀ i, i < s.counts.length → 1 ≤ s.counts.getD i 0) ∧
      ((∃ c ∈ s.counts, c = 0) →
        (UCB.selectArm s).1 = some (s.counts.findIdx (fun c => c == 0)) ∧
          s.counts.getD (s.counts.findIdx (fun c => c == 0)) 0 = 0 ∧
          ∀ j, j < s.counts.findIdx (fun c => c == 0) →
            s.counts.getD j 0 ≠ 0) := by
  constructor
  · intro hnone i hi
    have hall := List.findIdx?_eq_none_iff.mp hnone
    have hmem : s.counts.getD i 0 ∈ s.counts := by
      rw [List.getD_eq_getElem _ _ hi]
      exact List.getElem_mem hi
    have hne := hall _ hmem
    simp only [beq_eq_false_iff_ne, ne_eq] at hne
    exact Nat.one_le_iff_ne_zero.mpr hne
  · intro hex
    have hex2 : ∃ c, c ∈ s.counts ∧ (fun c => c == 0) c = true := by
      obtain ⟨c, hc, hc0⟩ := hex
      exact ⟨c, hc, by simp [hc0]⟩
    have hsome := List.findIdx?_eq_some_of_exists hex2
    have hlt : s.counts.findIdx (fun c => c == 0) < s.counts.length :=
      List.findIdx_lt_length_of_exists (by
        obtain ⟨c, hc, hc0⟩ := hex2
        exact ⟨c, hc, hc0⟩)
    refine ⟨?_, ?_, ?_⟩
    · unfold UCB.selectArm
      rw [hsome]
    · have hp := @List.findIdx_getElem _ (fun c => c == 0) s.counts hlt
      rw [List.getD_eq_getElem _ _ hlt]
      simpa using hp
    · intro j hj
      have hjl : j < s.counts.length := lt_trans hj hlt
      have hnp := List.not_of_lt_findIdx hj
      rw [List.getD_eq_getElem _ _ hjl]
      simpa using hnp

/-- C4 witness: with counts [1,2] the loop finds no zero and all counts
are ≥ 1; with counts [1,0] select_arm returns arm 1, the first zero. -/
theorem ucb_zero_branch_shields_division_witness :
    (∀ i, i < (⟨[1, 2], [0, 0]⟩ : BState).counts.length →
        1 ≤ (⟨[1, 2], [0, 0]⟩ : BState).counts.getD i 0) ∧
      ((UCB.selectArm ⟨[1, 0], [0, 0]⟩).1 =
          some ((⟨[1, 0], [0, 0]⟩ : BState).counts.findIdx
            (fun c => c == 0)) ∧
        (⟨[1, 0], [0, 0]⟩ : BState).counts.getD
          ((⟨[1, 0], [0, 0]⟩ : BState).counts.findIdx (fun c => c == 0)) 0
          = 0 ∧
        ∀ j, j < (⟨[1, 0], [0, 0]⟩ : BState).counts.findIdx
            (fun c => c == 0) →
          (⟨[1, 0], [0, 0]⟩ : BState).counts.getD j 0 ≠ 0) :=
  ⟨(ucb_zero_branch_shields_division ⟨[1, 2], [0, 0]⟩).1 rfl,
    (ucb_zero_branch_shields_division ⟨[1, 0], [0, 0]⟩).2
      ⟨0, by decide, rfl⟩⟩

theorem updateState_counts (s : BState) (a : ℕ) (r : ℚ) :
    (updateState s a r).counts = s.counts.set a (s.counts.getD a 0 + 1) :=
  rfl

theorem getD_set_of_lt {α : Type} (l : List α) (i : ℕ) (a d : α) (j : ℕ)
    (hj : j < l.length) :
    (l.set i a).getD j d = if i = j then a else l.getD j d := by
  rw [List.getD_eq_getElem _ _ (by simpa using hj),
    List.getD_eq_getElem _ _ hj, List.getElem_set]

theorem getD_replicate_zero (n i : ℕ) :
    (List.replicate n (0 : ℕ)).getD i 0 = 0 := by
  rw [List.getD_eq_getElem?_getD]
  rcases lt_or_ge i n with h | h
  · rw [List.getElem?_eq_getElem (by simpa using h)]
    simp
  · rw [List.getElem?_eq_none (by simpa using h)]
    rfl

/-- On a count vector whose first j entries are 1 and the rest 0, the
zero-count scan of UCB.select_arm finds exactly index j. -/
theorem findIdx_zero_of_pattern (c : List ℕ) (nArms j : ℕ)
    (hl : c.length = nArms) (hj : j < nArms)
    (hg : ∀ i, i < nArms → c.getD i 0 = if i < j then 1 else 0) :
    c.findIdx? (fun x => x == 0) = some j := by
  rw [List.findIdx?_eq_some_iff_getElem]
  have hjlen : j < c.length := by rw [hl]; exact hj
  refine ⟨hjlen, ?_, ?_⟩
  · have h0 := hg j hj
    rw [if_neg (lt_irrefl j), List.getD_eq_getElem _ _ hjlen] at h0
    simp [h0]
  · intro i hij
    have hiN : i < nArms := lt_trans hij hj
    have hilen : i < c.length := by rw [hl]; exact hiN
    have h1 := hg i hiN
    rw [if_pos hij, List.getD_eq_getElem _ _ hilen] at h1
    simp [h1]

/-- Invariant of the initial UCB rounds: after j ≤ K interleaved
select/update rounds, each of the first j arms has been played exactly
once and the remaining arms not at all. -/
theorem ucbRun_take_counts (nArms : ℕ) (rewards : List ℚ) :
    ∀ j, j ≤ nArms → j ≤ rewards.length →
      (ucbRun nArms (rewards.take j)).counts.length = nArms ∧
        ∀ i, i < nArms →
          (ucbRun nArms (rewards.take j)).counts.getD i 0
            = if i < j then 1 else 0 := by
  intro j
  induction j with
  | zero =>
    intro _ _
    constructor
    · simp [ucbRun, initializeState]
    · intro i _
      simp only [List.take_zero, ucbRun, List.foldl_nil, initializeState]
      rw [getD_replicate_zero]
      rw [if_neg (Nat.not_lt_zero i)]
  | succ j ih =>
    intro hjK hlen
    have hjN : j < nArms := hjK
    have hjL : j < rewards.length := hlen
    obtain ⟨ihlen, ihget⟩ := ih (le_of_lt hjN) (le_of_lt hjL)
    have htake : rewards.take (j + 1)
        = rewards.take j ++ [rewards.getD j 0] := by
      rw [List.take_succ, List.getElem?_eq_getElem hjL,
        List.getD_eq_getElem _ _ hjL]
      rfl
    have hrun : ucbRun nArms (rewards.take (j + 1))
        = ucbRound (ucbRun nArms (rewards.take j)) (rewards.getD j 0) := by
      rw [ucbRun, htake, List.foldl_append]
      rfl
    have hfind := findIdx_zero_of_pattern
      (ucbRun nArms (rewards.take j)).counts nArms j ihlen hjN ihget
    have hsel : (UCB.selectArm (ucbRun nArms (rewards.take j))).1
        = some j := by
      unfold UCB.selectArm
      rw [hfind]
    have hround : ucbRound (ucbRun nArms (rewards.take j)) (rewards.getD j 0)
        = updateState (ucbRun nArms (rewards.take j)) j (rewards.getD j 0) := by
      unfold ucbRound
      rw [hsel]
    rw [hrun, hround, updateState_counts]
    constructor
    · rw [List.length_set, ihlen]
    · intro i hi
      have hilen : i < (ucbRun nArms (rewards.take j)).counts.length := by
        rw [ihlen]; exact hi
      rw [getD_set_of_lt _ _ _ _ _ hilen]
      by_cases hij : j = i
      · subst hij
        rw [if_pos rfl, ihget j hjN, if_neg (lt_irrefl j),
          if_pos (Nat.lt_succ_self j)]
      · rw [if_neg hij, ihget i hi]
        have hiff : (i < j) ↔ (i < j + 1) := by
          constructor
          · exact fun h => lt_trans h (Nat.lt_succ_self j)
          · intro h
            rcases Nat.lt_succ_iff_lt_or_eq.mp h with h2 | h2
            · exact h2
            · exact absurd h2 (fun he => hij he.symm)
        by_cases hcase : i < j
        · rw [if_pos hcase, if_pos (hiff.mp hcase)]
        · rw [if_neg hcase, if_neg (fun hc => hcase (hiff.mpr hc))]

theorem ucbScores_length (s : BState) :
    (ucbScores s).length = s.counts.length := by
  simp [ucbScores]

/-- During the forced exploration phase, the j-th select_arm call returns
arm j. -/
theorem ucb_first_rounds (nArms : ℕ) (rewards : List ℚ) (j : ℕ)
    (hj : j < nArms) (hlen : j ≤ rewards.length) :
    (UCB.selectArm (ucbRun nArms (rewards.take j))).1 = some j := by
  obtain ⟨hl, hg⟩ := ucbRun_take_counts nArms rewards j (le_of_lt hj) hlen
  have hfind := findIdx_zero_of_pattern
    (ucbRun nArms (rewards.take j)).counts nArms j hl hj hg
  unfold UCB.selectArm
  rw [hfind]

/-- Once every arm has a positive count, select_arm returns the
first-occurring maximum of the UCB scores. -/
theorem ucb_exploit_argmax (s : BState)
    (h1 : ∀ i, i < s.counts.length → 1 ≤ s.counts.getD i 0)
    (h2 : s.counts ≠ []) :
    ∃ m, (UCB.selectArm s).1 = some m ∧ m < (ucbScores s).length ∧
      (∀ j, j < (ucbScores s).length →
        (ucbScores s).getD j 0 ≤ (ucbScores s).getD m 0) ∧
      (∀ j, j < m → (ucbScores s).getD j 0 < (ucbScores s).getD m 0) := by
  have hnone : s.counts.findIdx? (fun c => c == 0) = none := by
    rw [List.findIdx?_eq_none_iff]
    intro x hx
    obtain ⟨i, hi, hxe⟩ := List.mem_iff_getElem.mp hx
    have hge := h1 i hi
    rw [List.getD_eq_getElem _ _ hi, hxe] at hge
    have hx0 : x ≠ 0 := by omega
    simp [hx0]
  have hscne : ucbScores s ≠ [] := by
    intro he
    apply h2
    have hlen := congrArg List.length he
    rw [ucbScores_length] at hlen
    exact List.length_eq_zero.mp hlen
  obtain ⟨hm1, hm2, hm3⟩ := argmaxIdx_spec_getD (ucbScores s) 0 hscne
  refine ⟨argmaxIdx (ucbScores s), ?_, hm1, hm2, hm3⟩
  unfold UCB.selectArm
  rw [hnone]
  simp [argmaxIdxO, hscne]

/-- C2: starting from a freshly initialized UCB state, the first K
select/update rounds play arms 0, 1, ..., K-1 in that order (each arm
exactly once); and in any state where every arm has at least one play,
select_arm returns the first-occurring maximum of the scores
values[i] + sqrt(2*ln(n)/counts[i]) with n the total play count. -/
theorem ucb_select_spec :
    (∀ (nArms : ℕ) (rewards : List ℚ) (j : ℕ), j < nArms →
        j ≤ rewards.length →
        (UCB.selectArm (ucbRun nArms (rewards.take j))).1 = some j) ∧
      (∀ s : BState, (∀ i, i < s.counts.length → 1 ≤ s.counts.getD i 0) →
        s.counts ≠ [] →
        ∃ m, (UCB.selectArm s).1 = some m ∧ m < (ucbScores s).length ∧
          (∀ j, j < (ucbScores s).length →
            (ucbScores s).getD j 0 ≤ (ucbScores s).getD m 0) ∧
          (∀ j, j < m → (ucbScores s).getD j 0 < (ucbScores s).getD m 0)) :=
  ⟨ucb_first_rounds, ucb_exploit_argmax⟩

/-- C2 witness: with K = 2, the second round (j = 1) selects arm 1; and on
the state with counts [1,1] the exploit branch picks a maximising score
index. -/
theorem ucb_select_spec_witness :
    ((1 < 2 ∧ 1 ≤ ([1, 1] : List ℚ).length) ∧
        (UCB.selectArm (ucbRun 2 (([1, 1] : List ℚ).take 1))).1 = some 1) ∧
      (∃ m, (UCB.selectArm ⟨[1, 1], [0, 0]⟩).1 = some m ∧
        m < (ucbScores ⟨[1, 1], [0, 0]⟩).length ∧
        (∀ j, j < (ucbScores ⟨[1, 1], [0, 0]⟩).length →
          (ucbScores ⟨[1, 1], [0, 0]⟩).getD j 0 ≤
            (ucbScores ⟨[1, 1], [0, 0]⟩).getD m 0) ∧
        (∀ j, j < m → (ucbScores ⟨[1, 1], [0, 0]⟩).getD j 0 <
          (ucbScores ⟨[1, 1], [0, 0]⟩).getD m 0)) :=
  ⟨⟨⟨by decide, by decide⟩, ucb_select_spec.1 2 [1, 1] 1 (by decide) (by decide)⟩,
    ucb_select_spec.2 ⟨[1, 1], [0, 0]⟩ (by decide) (by decide)⟩

/-- The state reached from initialize(K) by a sequence of
update(arm, reward) calls. -/
def runUpdates (nArms : ℕ) (tr : List (ℕ × ℚ)) : BState :=
  tr.foldl (fun s u => updateState s u.1 u.2) (initializeState ⟨[], []⟩ nArms)

theorem updateState_values (s : BState) (a : ℕ) (r : ℚ) :
    (updateState s a r).values = s.values.set a
      (s.values.getD a 0 *
          ((((s.counts.set a (s.counts.getD a 0 + 1)).getD a 0 : ℚ) - 1)
            / ((s.counts.set a (s.counts.getD a 0 + 1)).getD a 0 : ℚ))
        + r / ((s.counts.set a (s.counts.getD a 0 + 1)).getD a 0 : ℚ)) :=
  rfl

theorem getD_replicate_self {α : Type} (x : α) (n i : ℕ) :
    (List.replicate n x).getD i x = x := by
  rw [List.getD_eq_getElem?_getD]
  rcases lt_or_ge i n with h | h
  · rw [List.getElem?_eq_getElem (by simpa using h)]
    simp
  · rw [List.getElem?_eq_none (by simpa using h)]
    rfl

theorem sum_set_add_one (l : List ℕ) : ∀ i, i < l.length →
    (l.set i (l.getD i 0 + 1)).sum = l.sum + 1 := by
  induction l with
  | nil => intro i hi; simp at hi
  | cons x xs ih =>
    intro i hi
    cases i with
    | zero =>
      simp only [List.getD_cons_zero, List.set_cons_zero, List.sum_cons]
      omega
    | succ i =>
      have hi2 : i < xs.length := by simpa using hi
      simp only [List.getD_cons_succ, List.set_cons_succ, List.sum_cons,
        ih i hi2]
      omega

/-- Full characterisation of the state reached by a trace of in-range
updates: vector lengths, total count, per-arm count and per-arm value. -/
theorem runUpdates_spec (nArms : ℕ) (tr : List (ℕ × ℚ))
    (harm : ∀ u ∈ tr, u.1 < nArms) :
    (runUpdates nArms tr).counts.length = nArms ∧
      (runUpdates nArms tr).values.length = nArms ∧
      (runUpdates nArms tr).counts.sum = tr.length ∧
      ∀ i, i < nArms →
        (runUpdates nArms tr).counts.getD i 0
            = (tr.filter (fun u => u.1 == i)).length ∧
          (runUpdates nArms tr).values.getD i 0
            = (if (tr.filter (fun u => u.1 == i)).length = 0 then 0
               else ((tr.filter (fun u => u.1 == i)).map (fun u => u.2)).sum
                 / ((tr.filter (fun u => u.1 == i)).length : ℚ)) := by
  induction tr using List.reverseRecOn with
  | nil =>
    refine ⟨by simp [runUpdates, initializeState], by
      simp [runUpdates, initializeState], by
      simp [runUpdates, initializeState], ?_⟩
    intro i _
    constructor
    · simp only [runUpdates, List.foldl_nil, initializeState]
      rw [getD_replicate_self]
      simp
    · simp only [runUpdates, List.foldl_nil, initializeState]
      rw [getD_replicate_self]
      simp
  | append_singleton tr u ih =>
    have harm2 : ∀ v ∈ tr, v.1 < nArms := by
      intro v hv
      exact harm v (List.mem_append_left _ hv)
    have ha : u.1 < nArms :=
      harm u (List.mem_append_right _ (List.mem_singleton.mpr rfl))
    obtain ⟨ihcl, ihvl, ihsum, ihget⟩ := ih harm2
    have hrun : runUpdates nArms (tr ++ [u])
        = updateState (runUpdates nArms tr) u.1 u.2 := by
      rw [runUpdates, List.foldl_append]
      rfl
    have hacl : u.1 < (runUpdates nArms tr).counts.length := by
      rw [ihcl]; exact ha
    have havl : u.1 < (runUpdates nArms tr).values.length := by
      rw [ihvl]; exact ha
    have hcntA : ((runUpdates nArms tr).counts.set u.1
        ((runUpdates nArms tr).counts.getD u.1 0 + 1)).getD u.1 0
        = (runUpdates nArms tr).counts.getD u.1 0 + 1 := by
      rw [getD_set_of_lt _ _ _ _ _ hacl, if_pos rfl]
    refine ⟨?_, ?_, ?_, ?_⟩
    · rw [hrun, updateState_counts, List.length_set, ihcl]
    · rw [hrun, updateState_values, List.length_set, ihvl]
    · rw [hrun, updateState_counts, sum_set_add_one _ _ hacl, ihsum]
      simp
    · intro i hi
      have hicl : i < (runUpdates nArms tr).counts.length := by
        rw [ihcl]; exact hi
      have hivl : i < (runUpdates nArms tr).values.length := by
        rw [ihvl]; exact hi
      obtain ⟨ihc, ihv⟩ := ihget i hi
      by_cases hia : u.1 = i
      · -- the updated arm
        subst hia
        have hfa : (tr ++ [u]).filter (fun v => v.1 == u.1)
            = tr.filter (fun v => v.1 == u.1) ++ [u] := by
          rw [List.filter_append]
          simp
        rw [hrun, updateState_counts, updateState_values, hfa]
        constructor
        · rw [getD_set_of_lt _ _ _ _ _ hicl, if_pos rfl, ihc]
          simp
        · rw [getD_set_of_lt _ _ _ _ _ hivl, if_pos rfl, hcntA, ihc, ihv]
          set c := (tr.filter (fun v => v.1 == u.1)).length with hc
          set S := ((tr.filter (fun v => v.1 == u.1)).map
            (fun v => v.2)).sum with hS
          have hlen1 : (tr.filter (fun v => v.1 == u.1) ++ [u]).length
              = c + 1 := by simp [hc]
          have hmap1 : ((tr.filter (fun v => v.1 == u.1) ++ [u]).map
              (fun v => v.2)).sum = S + u.2 := by simp [hS]
          rw [hlen1, hmap1]
          by_cases hc0 : c = 0
          · have hfil : tr.filter (fun v => v.1 == u.1) = [] := by
              apply List.length_eq_zero.mp
              rw [← hc]
              exact hc0
            have hS0 : S = 0 := by
              rw [hS, hfil]
              simp
            rw [if_pos hc0, if_neg (by omega), hc0, hS0]
            norm_num
          · rw [if_neg hc0, if_neg (by omega)]
            have hcq : ((c : ℚ)) ≠ 0 := by exact_mod_cast hc0
            have hcq1 : ((c : ℚ)) + 1 ≠ 0 := by positivity
            push_cast
            field_simp
      · -- an untouched arm
        have hfa : (tr ++ [u]).filter (fun v => v.1 == i)
            = tr.filter (fun v => v.1 == i) := by
          rw [List.filter_append]
          simp [hia]
        rw [hrun, updateState_counts, updateState_values, hfa]
        constructor
        · rw [getD_set_of_lt _ _ _ _ _ hicl, if_neg hia, ihc]
        · rw [getD_set_of_lt _ _ _ _ _ hivl, if_neg hia, ihv]

/-- C1: for the update shared by every strategy variant, after any
sequence of in-range update(arm, reward) calls following initialize(K),
sum(counts) equals the number of update calls, and each values[i] is the
arithmetic mean of exactly the rewards passed to update for arm i
(and 0 when counts[i] = 0). -/
theorem update_mean_invariant (nArms : ℕ) (tr : List (ℕ × ℚ))
    (harm : ∀ u ∈ tr, u.1 < nArms) :
    (runUpdates nArms tr).counts.sum = tr.length ∧
      ∀ i, i < nArms →
        (runUpdates nArms tr).counts.getD i 0
            = (tr.filter (fun u => u.1 == i)).length ∧
          (runUpdates nArms tr).values.getD i 0
            = (if (runUpdates nArms tr).counts.getD i 0 = 0 then 0
               else ((tr.filter (fun u => u.1 == i)).map (fun u => u.2)).sum
                 / ((tr.filter (fun u => u.1 == i)).length : ℚ)) := by
  obtain ⟨_, _, hsum, hget⟩ := runUpdates_spec nArms tr harm
  refine ⟨hsum, ?_⟩
  intro i hi
  obtain ⟨hc, hv⟩ := hget i hi
  refine ⟨hc, ?_⟩
  rw [hc]
  exact hv

/-- C1 witness: two arms, three updates — arm 0 gets rewards 3 and 1,
arm 1 gets reward 5. -/
theorem update_mean_invariant_witness :
    (runUpdates 2 [(0, 3), (0, 1), (1, 5)]).counts.sum
        = ([((0 : ℕ), (3 : ℚ)), (0, 1), (1, 5)]).length ∧
      ∀ i, i < 2 →
        (runUpdates 2 [(0, 3), (0, 1), (1, 5)]).counts.getD i 0
            = (([((0 : ℕ), (3 : ℚ)), (0, 1), (1, 5)]).filter
                (fun u => u.1 == i)).length ∧
          (runUpdates 2 [(0, 3), (0, 1), (1, 5)]).values.getD i 0
            = (if (runUpdates 2 [(0, 3), (0, 1), (1, 5)]).counts.getD i 0 = 0
               then 0
               else ((([((0 : ℕ), (3 : ℚ)), (0, 1), (1, 5)]).filter
                   (fun u => u.1 == i)).map (fun u => u.2)).sum
                 / ((([((0 : ℕ), (3 : ℚ)), (0, 1), (1, 5)]).filter
                   (fun u => u.1 == i)).length : ℚ)) :=
  update_mean_invariant 2 [(0, 3), (0, 1), (1, 5)] (by decide)

theorem getD_map_range {β : Type} (f : ℕ → β) (n t : ℕ) (d : β)
    (h : t < n) : ((List.range n).map f).getD t d = f t := by
  rw [List.getD_eq_getElem _ _ (by simpa using h)]
  simp

theorem snd_getD (l : List (ℕ × ℚ)) :
    ∀ t, (l.map (fun u => u.2)).getD t 0 = (l.getD t (0, 0)).2 := by
  induction l with
  | nil => intro t; rfl
  | cons x xs ih =>
    intro t
    cases t with
    | zero => rfl
    | succ t => exact ih t

theorem cumsumFrom_getD (l : List ℚ) : ∀ acc t, t < l.length →
    (cumsumFrom acc l).getD t 0 = acc + (l.take (t + 1)).sum := by
  induction l with
  | nil => intro acc t ht; simp at ht
  | cons x xs ih =>
    intro acc t ht
    cases t with
    | zero => simp [cumsumFrom]
    | succ t =>
      have ht2 : t < xs.length := by simpa using ht
      simp only [cumsumFrom, List.getD_cons_succ, List.take_succ_cons,
        List.sum_cons]
      rw [ih (acc + x) t ht2]
      ring

theorem cumsum_getD (l : List ℚ) (t : ℕ) (ht : t < l.length) :
    (cumsum l).getD t 0 = (l.take (t + 1)).sum := by
  rw [cumsum, cumsumFrom_getD l 0 t ht, zero_add]

/-- C6: the harness outputs satisfy — (a) average_rewards[t] is the mean
over the simulations of the reward recorded at step t; (b)
cumulative_rewards is the prefix sum of average_rewards; (c) its last
entry is the sum of all per-step averages. -/
theorem testAlgorithm_spec {σ ρ ρa : Type} (A : Algo σ ρ) (nArms : ℕ)
    (draw : ℕ → ρa → ℚ) (selR : ℕ → ℕ → ρ) (armR : ℕ → ℕ → ρa)
    (numSims horizon : ℕ) (hs : 1 ≤ numSims) (hh : 1 ≤ horizon) :
    (∀ t, t < horizon →
        (testAlgorithm A nArms draw selR armR numSims horizon).2.1.getD t 0
          = ((List.range numSims).map (fun sim =>
              ((simSteps A draw (selR sim) (armR sim) (A.init nArms) 0
                horizon).getD t (0, 0)).2)).sum / (numSims : ℚ)) ∧
      (∀ t, t < horizon →
        (testAlgorithm A nArms draw selR armR numSims horizon).2.2.getD t 0
          = ((testAlgorithm A nArms draw selR armR numSims
              horizon).2.1.take (t + 1)).sum) ∧
      (testAlgorithm A nArms draw selR armR numSims horizon).2.2.getD
          (horizon - 1) 0
        = (testAlgorithm A nArms draw selR armR numSims horizon).2.1.sum := by
  have hcum : (testAlgorithm A nArms draw selR armR numSims horizon).2.2
      = cumsum ((testAlgorithm A nArms draw selR armR numSims
        horizon).2.1) := rfl
  have hlen : (testAlgorithm A nArms draw selR armR numSims
      horizon).2.1.length = horizon := by
    simp [testAlgorithm]
  have havg : ∀ t, t < horizon →
      (testAlgorithm A nArms draw selR armR numSims horizon).2.1.getD t 0
        = ((List.range numSims).map (fun sim =>
            ((simSteps A draw (selR sim) (armR sim) (A.init nArms) 0
              horizon).getD t (0, 0)).2)).sum / (numSims : ℚ) := by
    intro t ht
    simp only [testAlgorithm, List.map_map]
    rw [getD_map_range _ _ _ _ ht]
    congr 1
    refine congrArg List.sum ?_
    apply List.map_congr_left
    intro sim _
    simp only [Function.comp]
    exact snd_getD _ t
  have hpre : ∀ t, t < horizon →
      (testAlgorithm A nArms draw selR armR numSims horizon).2.2.getD t 0
        = ((testAlgorithm A nArms draw selR armR numSims
            horizon).2.1.take (t + 1)).sum := by
    intro t ht
    rw [hcum]
    exact cumsum_getD _ t (by rw [hlen]; exact ht)
  refine ⟨havg, hpre, ?_⟩
  have hh1 : horizon - 1 < horizon := by omega
  rw [hpre (horizon - 1) hh1]
  have he : horizon - 1 + 1 = horizon := by omega
  rw [he, List.take_of_length_le (le_of_eq hlen)]

/-- C6 witness: a trivial one-state strategy with constant reward 1, one
simulation, horizon one. -/
theorem testAlgorithm_spec_witness :
    (∀ t, t < 1 →
        (testAlgorithm (⟨fun _ => (), fun _ _ => 0, fun _ _ _ => ()⟩ :
            Algo Unit Unit) 1 (fun _ _ => 1) (fun _ _ => ())
            (fun _ _ => ()) 1 1).2.1.getD t 0
          = ((List.range 1).map (fun sim =>
              ((simSteps (⟨fun _ => (), fun _ _ => 0, fun _ _ _ => ()⟩ :
                  Algo Unit Unit) (fun _ _ => 1) ((fun _ _ => ()) sim)
                  ((fun _ _ => ()) sim)
                  ((⟨fun _ => (), fun _ _ => 0, fun _ _ _ => ()⟩ :
                    Algo Unit Unit).init 1) 0 1).getD t (0, 0)).2)).sum
            / ((1 : ℕ) : ℚ)) ∧
      (∀ t, t < 1 →
        (testAlgorithm (⟨fun _ => (), fun _ _ => 0, fun _ _ _ => ()⟩ :
            Algo Unit Unit) 1 (fun _ _ => 1) (fun _ _ => ())
            (fun _ _ => ()) 1 1).2.2.getD t 0
          = ((testAlgorithm (⟨fun _ => (), fun _ _ => 0, fun _ _ _ => ()⟩ :
              Algo Unit Unit) 1 (fun _ _ => 1) (fun _ _ => ())
              (fun _ _ => ()) 1 1).2.1.take (t + 1)).sum) ∧
      (testAlgorithm (⟨fun _ => (), fun _ _ => 0, fun _ _ _ => ()⟩ :
          Algo Unit Unit) 1 (fun _ _ => 1) (fun _ _ => ())
          (fun _ _ => ()) 1 1).2.2.getD (1 - 1) 0
        = (testAlgorithm (⟨fun _ => (), fun _ _ => 0, fun _ _ _ => ()⟩ :
            Algo Unit Unit) 1 (fun _ _ => 1) (fun _ _ => ())
            (fun _ _ => ()) 1 1).2.1.sum :=
  testAlgorithm_spec (⟨fun _ => (), fun _ _ => 0, fun _ _ _ => ()⟩ :
      Algo Unit Unit) 1 (fun _ _ => 1) (fun _ _ => ()) (fun _ _ => ()) 1 1
    (le_refl 1) (le_refl 1)
